import Mathlib

/-
Verification of the adaptive heightmap renderer from the `Heightmap`
namespace of the source (functions `pixels`, `recurse`, `Render`), together
with the supporting data model.

Modelling conventions:
 * doubles are modelled as rationals (ℚ); the depth image stores `WithBot ℚ`,
   with `⊥` standing for the initial `-infinity` sentinel;
 * the packed 32-bit normal image stores `Option ℕ`: `some v` is a defined
   uint32 value, `none` marks a value contaminated by a NaN (the IEEE result
   of the 0/0 division that the code performs on a zero-length gradient,
   whose conversion to uint32 is undefined);
 * `sqrt` from `<cmath>` is an abstract parameter `sq : ℚ → ℚ` (ℚ has no
   square root); theorems that depend on its value carry the corresponding
   hypotheses (`sq s = l` with `l * l = s`, `0 ≤ l`), which hold for the
   real square root;
 * the evaluator (`Tree::eval`, `evalCore`, `setPoint`, `push`, `pop`),
   `Region::split` and the `Result::count` constants are declared but not
   defined in the available sources, so they are modelled from the spec:
   evaluation is a pure scalar field, `push`/`pop` do not change evaluation
   results (spec: push/pop neutrality) and are recorded as trace events,
   the interval evaluator is a function of the region whose soundness is the
   spec's interval invariant, the batch widths W and NUM_POINTS are
   parameters, and `split` bisects the largest axis (ties X then Y then Z,
   the higher-Z half second, as the source comment states);
 * the cooperative cancellation flag is a sequence `abort : ℕ → Bool`
   giving the value seen by the n-th atomic load (one load per call of
   `recurse`, counted in the state field `checks`).
-/

set_option maxHeartbeats 1000000
set_option maxRecDepth 4000

namespace Heightmap


/-- Depth image: one `WithBot ℚ` entry per pixel, `⊥` = -infinity sentinel. -/
abbrev Depth : Type := ℕ → ℕ → WithBot ℚ

/-- Normal image: one packed 32-bit value per pixel; `none` marks a
NaN-contaminated (undefined) value. -/
abbrev Norm : Type := ℕ → ℕ → Option ℕ

/-- Modelled from the spec: one axis descriptor of a `Region` (image offset
`min`, voxel count `size`, and the world coordinate `pos i` of voxel `i`);
`Region` itself is only declared in the available sources. -/
structure Axis where
  min : ℕ
  size : ℕ
  pos : ℕ → ℚ

/-- A sampling region: three independent axis descriptors. -/
structure Region where
  X : Axis
  Y : Axis
  Z : Axis

/-- Total voxel count of a region (`Region::voxels`). -/
def Region.voxels (r : Region) : ℕ := r.X.size * r.Y.size * r.Z.size

/-- Modelled from the spec: a region can split iff some axis has more than
one voxel (`Region::canSplit`). -/
def Region.canSplit (r : Region) : Bool :=
  decide (1 < r.X.size ∨ 1 < r.Y.size ∨ 1 < r.Z.size)

/-- Split one axis at local voxel index `n`: lower part keeps the first `n`
voxels, upper part gets the rest (image offset and positions shifted). -/
def Axis.splitAt (a : Axis) (n : ℕ) : Axis × Axis :=
  (⟨a.min, n, a.pos⟩, ⟨a.min + n, a.size - n, fun k => a.pos (n + k)⟩)

/-- Modelled from the spec: `Region::split` bisects the currently largest
axis (ties broken deterministically: X, then Y, then Z); when the split is
along Z the half with the higher Z extent is the second component, as the
source comment in `recurse` states. -/
def Region.split (r : Region) : Region × Region :=
  if r.Y.size ≤ r.X.size ∧ r.Z.size ≤ r.X.size then
    (⟨(r.X.splitAt (r.X.size / 2)).1, r.Y, r.Z⟩,
     ⟨(r.X.splitAt (r.X.size / 2)).2, r.Y, r.Z⟩)
  else if r.Z.size ≤ r.Y.size then
    (⟨r.X, (r.Y.splitAt (r.Y.size / 2)).1, r.Z⟩,
     ⟨r.X, (r.Y.splitAt (r.Y.size / 2)).2, r.Z⟩)
  else
    (⟨r.X, r.Y, (r.Z.splitAt (r.Z.size / 2)).1⟩,
     ⟨r.X, r.Y, (r.Z.splitAt (r.Z.size / 2)).2⟩)

/-- A gradient triple (dx, dy, dz) as produced by `evalCore<Gradient>`. -/
structure Grad where
  dx : ℚ
  dy : ℚ
  dz : ℚ
deriving DecidableEq

/-- Modelled from the spec: the expression graph / evaluator (`Tree`), which
is only declared in the available sources.  `f` is the scalar field
(`Tree::eval` on points), `grad` the derivative evaluator
(`evalCore<Gradient>` at a staged point), `ival` the interval evaluator
(`Tree::eval` on the three axis intervals of a region).  Per the spec,
evaluation is pure and `push`/`pop` deactivation never changes evaluation
results (push/pop neutrality), so the model carries no activation state;
`push`/`pop` are recorded as trace events by the renderer. -/
structure Tree where
  f : ℚ → ℚ → ℚ → ℚ
  grad : ℚ → ℚ → ℚ → Grad
  ival : Region → ℚ × ℚ

/-- A point staged for bulk gradient evaluation: image coordinates `(y, x)`
and the world coordinates handed to `setPoint<Gradient>` (note that the
source stages `r.Z.pos(k)` for the loop counter `k` whose depth voxel is
`r.Z.pos(r.Z.size - k - 1)`; the model reproduces this faithfully). -/
structure StagedPt where
  x : ℕ
  y : ℕ
  px : ℚ
  py : ℚ
  pz : ℚ
deriving DecidableEq

/-- One 8-bit channel of the packed normal, from component `c` and vector
length `len`: the source computes `255 * (c / (2*len) + 0.5)` in doubles and
converts to `uint32_t` (truncation).  For `len = 0` the division is 0/0
(the numerator is then also 0), i.e. NaN: modelled as `none`. -/
def packChan (c len : ℚ) : Option ℕ :=
  if len = 0 then none
  else some (⌊255 * (c / (2 * len) + 1 / 2)⌋).toNat

/-- The packed 32-bit normal `(0xff << 24) | (dz << 16) | (dy << 8) | dx`
of the source's `run()` lambda, on uint32 arithmetic (mod 2^32); `none` if
any channel is NaN-contaminated. -/
def packNormal (g : Grad) (len : ℚ) : Option ℕ :=
  match packChan g.dx len, packChan g.dy len, packChan g.dz len with
  | some dx, some dy, some dz =>
      some (Nat.lor (Nat.lor (Nat.lor (255 * 2 ^ 24 % 2 ^ 32) (dz * 2 ^ 16 % 2 ^ 32))
              (dy * 2 ^ 8 % 2 ^ 32)) (dx % 2 ^ 32))
  | _, _, _ => none

/-- The `run()` lambda of `pixels`: evaluate the gradient at every staged
point, normalize by the vector length `sqrt(dx^2 + dy^2 + dz^2)`, and blit
the packed normals to the normal image. -/
def flush (t : Tree) (sq : ℚ → ℚ) (l : List StagedPt) (nm : Norm) : Norm :=
  l.foldl (fun nm p =>
    let g := t.grad p.px p.py p.pz
    let len := sq (g.dx ^ 2 + g.dy ^ 2 + g.dz ^ 2)
    fun y x => if y = p.y ∧ x = p.x then packNormal g len else nm y x) nm

/-- State of one `pixels` call: the two images plus the staged-gradient
buffer (the `xs`/`ys` arrays and `setPoint` lanes, of capacity NUM_POINTS). -/
structure PixState where
  depth : Depth
  norm : Norm
  staged : List StagedPt

/-- The body of the write branch of the voxel loop in `pixels` (loop counter
k with `n = r.Z.size - 1 - k` voxels at lower z remaining): write the depth,
stage the point for gradient evaluation (`norm_count++`), and if the staging
buffer is full (`norm_count == NUM_POINTS`) run the bulk normal calculation. -/
def stagePush (t : Tree) (sq : ℚ → ℚ) (NG : ℕ) (r : Region) (i j n : ℕ)
    (s : PixState) : PixState :=
  let st := s.staged ++
    [⟨r.X.min + i, r.Y.min + j, r.X.pos i, r.Y.pos j, r.Z.pos (r.Z.size - 1 - n)⟩]
  let d := fun y x => if y = r.Y.min + j ∧ x = r.X.min + i
    then ((r.Z.pos n : ℚ) : WithBot ℚ) else s.depth y x
  if st.length = NG then ⟨d, flush t sq st s.norm, []⟩ else ⟨d, s.norm, st⟩

/-- The innermost (Z) loop of `pixels` for the pixel column `(i, j)`, with
`n` voxels remaining; the scan runs from the viewer (high z, voxel index
`n - 1` at `z = r.Z.pos (n-1)`) downwards and breaks out of the column as
soon as it writes a pixel, since all subsequent voxels are behind it. -/
def column (t : Tree) (sq : ℚ → ℚ) (NG : ℕ) (r : Region) (i j : ℕ) :
    ℕ → PixState → PixState
  | 0, s => s
  | n + 1, s =>
    if t.f (r.X.pos i) (r.Y.pos j) (r.Z.pos n) < 0 then
      if s.depth (r.Y.min + j) (r.X.min + i) < ((r.Z.pos n : ℚ) : WithBot ℚ) then
        stagePush t sq NG r i j n s
      else column t sq NG r i j n s
    else column t sq NG r i j n s

/-- The pixel columns of a region in `REGION_ITERATE_XYZ` order
(X outermost, then Y; Z is the innermost loop handled by `column`). -/
def colsAux (Ysz : ℕ) : ℕ → List (ℕ × ℕ)
  | 0 => []
  | i + 1 => colsAux Ysz i ++ (List.range Ysz).map (fun j => (i, j))

/-- All pixel columns of a region. -/
def cols (r : Region) : List (ℕ × ℕ) := colsAux r.Y.size r.X.size

/-- The voxel loop of `pixels` over all columns of the region. -/
def pixelsState (t : Tree) (sq : ℚ → ℚ) (NG : ℕ) (r : Region)
    (s : PixState) : PixState :=
  (cols r).foldl (fun s p => column t sq NG r p.1 p.2 r.Z.size s) s

/-- `Heightmap::pixels`: exhaustive per-voxel evaluation of a region,
updating the two images; ends by running the last of the staged normal
calculations (`if (norm_count > 0) run()`). -/
def pixels (t : Tree) (sq : ℚ → ℚ) (NG : ℕ) (r : Region) (d : Depth)
    (nm : Norm) : Depth × Norm :=
  let s := pixelsState t sq NG r ⟨d, nm, []⟩
  (s.depth, if 0 < s.staged.length then flush t sq s.staged s.norm else s.norm)

/-- Trace events recorded by `recurse`: evaluator deactivation push/pop and
the opaque-region block fill. -/
inductive Ev where
  | push : Ev
  | pop : Ev
  | fill : Ev
deriving DecidableEq

/-- State threaded through `recurse`: the two images, the number of atomic
loads of the cancellation flag performed so far, and the event trace. -/
structure RState where
  depth : Depth
  norm : Norm
  checks : ℕ
  trace : List Ev

/-- The region's maximum Z value `r.Z.pos(r.Z.size - 1)`. -/
def zcap (r : Region) : ℚ := r.Z.pos (r.Z.size - 1)

/-- Membership of an image pixel `(y, x)` in the footprint (the image block)
of a region. -/
def inFoot (r : Region) (y x : ℕ) : Prop :=
  r.Y.min ≤ y ∧ y < r.Y.min + r.Y.size ∧ r.X.min ≤ x ∧ x < r.X.min + r.X.size

instance (r : Region) (y x : ℕ) : Decidable (inFoot r y x) := by
  unfold inFoot; infer_instance

/-- The occlusion test of `recurse`: every pixel of the region's image block
already records a depth at or above the region's maximum Z
(`(block >= r.Z.pos(r.Z.size - 1)).all()`). -/
def occluded (r : Region) (d : Depth) : Bool :=
  decide (∀ j, j < r.Y.size → ∀ i, i < r.X.size →
    ((zcap r : ℚ) : WithBot ℚ) ≤ d (r.Y.min + j) (r.X.min + i))

/-- The opaque fill of `recurse`: `block = block.max(r.Z.pos(r.Z.size - 1))`,
a coefficient-wise max over the region's image block. -/
def fillBlock (r : Region) (d : Depth) : Depth :=
  fun y x => if inFoot r y x then max (d y x) ((zcap r : ℚ) : WithBot ℚ) else d y x

/-- The state after a call's single atomic load of the cancellation flag. -/
def tick (s : RState) : RState := ⟨s.depth, s.norm, s.checks + 1, s.trace⟩

/-- Record a `push()` call (which also is not an abort check). -/
def pushEv (s : RState) : RState := ⟨s.depth, s.norm, s.checks, s.trace ++ [Ev.push]⟩

/-- Record a `pop()` call. -/
def popEv (s : RState) : RState := ⟨s.depth, s.norm, s.checks, s.trace ++ [Ev.pop]⟩

/-- The body of `Heightmap::recurse`, structurally recursive on a fuel
argument so that the definition evaluates by kernel reduction; the wrapper
`recurse` below supplies fuel `r.voxels + 1`, which `recurseGo_fuel` proves
sufficient (each subdivision strictly decreases the voxel count, so the
fuel-0 branch is never reached from the wrapper).  Branches in source order:
abort check, occlusion check, leaf (per-voxel) case, interval evaluation
with opaque fill / ambiguous subdivision (push, higher-Z half, lower-Z half,
pop) / empty skip. -/
def recurseGo (W NG : ℕ) (t : Tree) (sq : ℚ → ℚ) (abort : ℕ → Bool) :
    ℕ → Region → RState → RState
  | 0, _, s => s
  | fuel + 1, r, s =>
    if abort s.checks then tick s
    else if occluded r s.depth then tick s
    else if r.voxels ≤ W then
      ⟨(pixels t sq NG r s.depth s.norm).1, (pixels t sq NG r s.depth s.norm).2,
        s.checks + 1, s.trace⟩
    else if (t.ival r).2 < 0 then
      ⟨fillBlock r s.depth, s.norm, s.checks + 1, s.trace ++ [Ev.fill]⟩
    else if (t.ival r).1 ≤ 0 then
      if r.canSplit then
        popEv (recurseGo W NG t sq abort fuel (r.split).1
          (recurseGo W NG t sq abort fuel (r.split).2 (pushEv (tick s))))
      else tick s
    else tick s

/-- `Heightmap::recurse`: reduce one region.  `W` is the batch width
`Result::count<double>()`, `NG` is `Result::count<Gradient>()` (both are
build-time constants of sources not available here, hence parameters). -/
def recurse (W NG : ℕ) (t : Tree) (sq : ℚ → ℚ) (abort : ℕ → Bool)
    (r : Region) (s : RState) : RState :=
  recurseGo W NG t sq abort (r.voxels + 1) r s

/-- The initial render state: depth filled with -infinity, normals zero, no
abort checks performed, empty trace. -/
def initState : RState := ⟨fun _ _ => ⊥, fun _ _ => some 0, 0, []⟩

/-- `Heightmap::Render`: initialize the images, recurse over the region,
then, if `clip` is set, force the normal of every pixel whose depth equals
the region's maximum Z to the packed +Z value
(`norm = (depth == r.Z.pos(r.Z.size-1)).select(0xffff7f7f, norm)`). -/
def Render (W NG : ℕ) (t : Tree) (sq : ℚ → ℚ) (abort : ℕ → Bool)
    (r : Region) (clip : Bool) : Depth × Norm :=
  let s := recurse W NG t sq abort r initState
  if clip then
    (s.depth, fun y x =>
      if s.depth y x = ((zcap r : ℚ) : WithBot ℚ) then some 0xffff7f7f else s.norm y x)
  else (s.depth, s.norm)

/-! ### What `pixels` computes on the depth image -/

/-- The maximum z position among the filled voxels (field value negative)
with Z index below `n` of the pixel column `(i, j)`; `⊥` if there are none. -/
def colmaxAux (t : Tree) (r : Region) (i j : ℕ) : ℕ → WithBot ℚ
  | 0 => ⊥
  | n + 1 =>
    if t.f (r.X.pos i) (r.Y.pos j) (r.Z.pos n) < 0
    then max (colmaxAux t r i j n) ((r.Z.pos n : ℚ) : WithBot ℚ)
    else colmaxAux t r i j n

/-- The depth a pixel column resolves to under exhaustive evaluation: the
maximum z among its filled voxels, `⊥` if the column misses the solid. -/
def colmax (t : Tree) (r : Region) (i j : ℕ) : WithBot ℚ :=
  colmaxAux t r i j r.Z.size

/-- The Z axis positions are strictly increasing in the voxel index (true of
the world-coordinate layout of a `Region`; the renderer's early-out column
scan relies on it). -/
def ZMono (r : Region) : Prop :=
  ∀ b, b < r.Z.size → ∀ a, a < b → r.Z.pos a < r.Z.pos b

/-- The spec's interval-soundness contract for the modelled evaluator: the
value at every voxel sample point of a region lies within the interval the
evaluator returns for that region. -/
def Sound (t : Tree) : Prop :=
  ∀ r : Region, ∀ i, i < r.X.size → ∀ j, j < r.Y.size → ∀ k, k < r.Z.size →
    (t.ival r).1 ≤ t.f (r.X.pos i) (r.Y.pos j) (r.Z.pos k) ∧
    t.f (r.X.pos i) (r.Y.pos j) (r.Z.pos k) ≤ (t.ival r).2

/-- The effect of resolving a region on the depth image: inside the
footprint each pixel becomes the max of its previous depth and the column
maximum; outside it is untouched. -/
def depthSpec (t : Tree) (r : Region) (d : Depth) : Depth :=
  fun y x => if inFoot r y x
    then max (d y x) (colmax t r (x - r.X.min) (y - r.Y.min))
    else d y x

/-! ### The push/pop trace is a balanced Dyck word -/

/-- Run a trace through a push/pop counter: `none` marks a `pop()` with no
matching open `push()`; otherwise the final nesting depth. -/
def dyckRun : List Ev → ℕ → Option ℕ
  | [], n => some n
  | Ev.push :: l, n => dyckRun l (n + 1)
  | Ev.pop :: l, n =>
    match n with
    | 0 => none
    | m + 1 => dyckRun l m
  | Ev.fill :: l, n => dyckRun l n

/-- A trace is balanced: every `pop` closes an open `push` and every `push`
is closed, in stack (Dyck) order. -/
def isBalanced (l : List Ev) : Bool := dyckRun l 0 == some 0

/-- The channel mapping exactly as the spec words it: `round(255 *
(component/(2*length) + 0.5))` — for comparison with the source's
truncating `packChan`. -/
def packChanSpec (c len : ℚ) : Option ℕ :=
  if len = 0 then none
  else some (round (255 * (c / (2 * len) + 1 / 2))).toNat

/-- The packed normal as the spec words it (rounded channels combined in
(alpha|z|y|x) byte order) — for comparison with the source's `packNormal`. -/
def packNormalSpec (g : Grad) (len : ℚ) : Option ℕ :=
  match packChanSpec g.dx len, packChanSpec g.dy len, packChanSpec g.dz len with
  | some dx, some dy, some dz => some (255 * 2 ^ 24 + dz * 2 ^ 16 + dy * 2 ^ 8 + dx)
  | _, _, _ => none

/-! ### Concrete test inputs -/

/-- The exhaustive per-voxel baseline: `pixels` applied to the whole region
on freshly initialized images. -/
def exhaustive (t : Tree) (sq : ℚ → ℚ) (NG : ℕ) (r : Region) : Depth × Norm :=
  pixels t sq NG r (fun _ _ => ⊥) (fun _ _ => some 0)

/-- Constant field -1 (everywhere inside) with gradient (0, 0, 1). -/
def treeK : Tree := ⟨fun _ _ _ => -1, fun _ _ _ => ⟨0, 0, 1⟩, fun _ => (-1, -1)⟩

/-- Constant field -1 with gradient (1, 0, 0). -/
def treeX : Tree := ⟨fun _ _ _ => -1, fun _ _ _ => ⟨1, 0, 0⟩, fun _ => ⟨-1, -1⟩⟩

/-- Constant field -1 with the degenerate zero gradient. -/
def treeZer : Tree := ⟨fun _ _ _ => -1, fun _ _ _ => ⟨0, 0, 0⟩, fun _ => (-1, -1)⟩

/-- Constant field -1 whose interval evaluator reports the straddling
interval (-1, 1). -/
def treeAmb : Tree := ⟨fun _ _ _ => -1, fun _ _ _ => ⟨0, 0, 1⟩, fun _ => (-1, 1)⟩

/-- A function agreeing with the real square root on the arguments the
tests use (1 ↦ 1). -/
def sqTest : ℚ → ℚ := fun q => if q = 1 then 1 else 0

/-- Unit voxel positions 0, 1, 1, ... (strictly increasing on the first two). -/
def posU : ℕ → ℚ := fun k => if k = 0 then 0 else 1

/-- Constant position 3. -/
def pos3 : ℕ → ℚ := fun _ => 3

/-- A 1 x 1 x 2 region. -/
def regA : Region := ⟨⟨0, 1, posU⟩, ⟨0, 1, posU⟩, ⟨0, 2, posU⟩⟩

/-- A single-voxel region. -/
def regB : Region := ⟨⟨0, 1, posU⟩, ⟨0, 1, posU⟩, ⟨0, 1, posU⟩⟩

/-- A 2 x 1 x 1 region whose single z position is 3. -/
def regC : Region := ⟨⟨0, 2, posU⟩, ⟨0, 1, posU⟩, ⟨0, 1, pos3⟩⟩

/-- The cancellation flag that is never set. -/
def abortOff : ℕ → Bool := fun _ => false

/-- A render state whose pixel (0,0) already records depth 5 while pixel
(0,1) is still unresolved. -/
def s5 : RState :=
  ⟨fun y x => if y = 0 ∧ x = 0 then ((5 : ℚ) : WithBot ℚ) else ⊥, fun _ _ => some 0, 0, []⟩

theorem split_voxels_lt (r : Region) (hs : r.canSplit = true) (hv : 0 < r.voxels) :
    (r.split).1.voxels < r.voxels ∧ (r.split).2.voxels < r.voxels := by
  have hx : 0 < r.X.size := by
    rcases Nat.eq_zero_or_pos r.X.size with h | h
    · exfalso; simp [Region.voxels, h] at hv
    · exact h
  have hy : 0 < r.Y.size := by
    rcases Nat.eq_zero_or_pos r.Y.size with h | h
    · exfalso; simp [Region.voxels, h] at hv
    · exact h
  have hz : 0 < r.Z.size := by
    rcases Nat.eq_zero_or_pos r.Z.size with h | h
    · exfalso; simp [Region.voxels, h] at hv
    · exact h
  have hcs : 1 < r.X.size ∨ 1 < r.Y.size ∨ 1 < r.Z.size := by
    simpa [Region.canSplit] using hs
  unfold Region.split
  split_ifs with h1 h2
  · have h2x : 1 < r.X.size := by omega
    constructor <;>
      · simp only [Region.voxels, Axis.splitAt]
        apply Nat.mul_lt_mul_of_lt_of_le
        · apply Nat.mul_lt_mul_of_lt_of_le _ (le_refl _) hy
          omega
        · exact le_refl _
        · exact hz
  · have h2y : 1 < r.Y.size := by omega
    constructor <;>
      · simp only [Region.voxels, Axis.splitAt]
        apply Nat.mul_lt_mul_of_lt_of_le
        · apply Nat.mul_lt_mul_of_le_of_lt (le_refl _) _ hx
          omega
        · exact le_refl _
        · exact hz
  · have h2z : 1 < r.Z.size := by omega
    constructor <;>
      · simp only [Region.voxels, Axis.splitAt]
        apply Nat.mul_lt_mul_of_le_of_lt (le_refl _)
        · omega
        · exact Nat.mul_pos hx hy

theorem recurseGo_fuel (W NG : ℕ) (t : Tree) (sq : ℚ → ℚ) (abort : ℕ → Bool) :
    ∀ f g r s, r.voxels < f → r.voxels < g →
      recurseGo W NG t sq abort f r s = recurseGo W NG t sq abort g r s := by
  intro f
  induction f with
  | zero => intro g r s hf; omega
  | succ f ih =>
    intro g r s hf hg
    match g, hg with
    | g + 1, hg =>
      simp only [recurseGo]
      split
      · rfl
      · split
        · rfl
        · split
          · rfl
          · split
            · rfl
            · split
              · split
                · rename_i hle hival hlow hcs
                  have hv : 0 < r.voxels := by omega
                  have h1 := (split_voxels_lt r hcs hv).1
                  have h2 := (split_voxels_lt r hcs hv).2
                  rw [ih g (r.split).2 _ (by omega) (by omega)]
                  rw [ih g (r.split).1 _ (by omega) (by omega)]
                · rfl
              · rfl

theorem recurse_eq_go (W NG : ℕ) (t : Tree) (sq : ℚ → ℚ) (abort : ℕ → Bool)
    (r : Region) (s : RState) (f : ℕ) (hf : r.voxels < f) :
    recurse W NG t sq abort r s = recurseGo W NG t sq abort f r s :=
  recurseGo_fuel W NG t sq abort (r.voxels + 1) f r s (by omega) hf


/-! ### Branch equations for `recurse` -/

theorem recurse_abort {W NG : ℕ} {t : Tree} {sq : ℚ → ℚ} {abort : ℕ → Bool}
    {r : Region} {s : RState} (h : abort s.checks = true) :
    recurse W NG t sq abort r s = tick s := by
  simp [recurse, recurseGo, h]

theorem recurse_occl {W NG : ℕ} {t : Tree} {sq : ℚ → ℚ} {abort : ℕ → Bool}
    {r : Region} {s : RState} (h1 : abort s.checks = false)
    (h2 : occluded r s.depth = true) :
    recurse W NG t sq abort r s = tick s := by
  simp [recurse, recurseGo, h1, h2, tick]

theorem recurse_leaf {W NG : ℕ} {t : Tree} {sq : ℚ → ℚ} {abort : ℕ → Bool}
    {r : Region} {s : RState} (h1 : abort s.checks = false)
    (h2 : occluded r s.depth = false) (h3 : r.voxels ≤ W) :
    recurse W NG t sq abort r s =
      ⟨(pixels t sq NG r s.depth s.norm).1, (pixels t sq NG r s.depth s.norm).2,
        s.checks + 1, s.trace⟩ := by
  simp [recurse, recurseGo, h1, h2, h3]

theorem recurse_fill {W NG : ℕ} {t : Tree} {sq : ℚ → ℚ} {abort : ℕ → Bool}
    {r : Region} {s : RState} (h1 : abort s.checks = false)
    (h2 : occluded r s.depth = false) (h3 : ¬ (r.voxels ≤ W))
    (h4 : (t.ival r).2 < 0) :
    recurse W NG t sq abort r s =
      ⟨fillBlock r s.depth, s.norm, s.checks + 1, s.trace ++ [Ev.fill]⟩ := by
  simp [recurse, recurseGo, h1, h2, h3, h4]

theorem recurse_skip {W NG : ℕ} {t : Tree} {sq : ℚ → ℚ} {abort : ℕ → Bool}
    {r : Region} {s : RState} (h1 : abort s.checks = false)
    (h2 : occluded r s.depth = false) (h3 : ¬ (r.voxels ≤ W))
    (h4 : ¬ ((t.ival r).2 < 0)) (h5 : ¬ ((t.ival r).1 ≤ 0)) :
    recurse W NG t sq abort r s = tick s := by
  simp [recurse, recurseGo, h1, h2, h3, h4, h5, tick]

theorem recurse_nosplit {W NG : ℕ} {t : Tree} {sq : ℚ → ℚ} {abort : ℕ → Bool}
    {r : Region} {s : RState} (h1 : abort s.checks = false)
    (h2 : occluded r s.depth = false) (h3 : ¬ (r.voxels ≤ W))
    (h4 : ¬ ((t.ival r).2 < 0)) (h5 : (t.ival r).1 ≤ 0)
    (h6 : ¬ (r.canSplit = true)) :
    recurse W NG t sq abort r s = tick s := by
  simp [recurse, recurseGo, h1, h2, h3, h4, h5, h6, tick]

theorem recurse_split {W NG : ℕ} {t : Tree} {sq : ℚ → ℚ} {abort : ℕ → Bool}
    {r : Region} {s : RState} (h1 : abort s.checks = false)
    (h2 : occluded r s.depth = false) (h3 : ¬ (r.voxels ≤ W))
    (h4 : ¬ ((t.ival r).2 < 0)) (h5 : (t.ival r).1 ≤ 0)
    (h6 : r.canSplit = true) :
    recurse W NG t sq abort r s =
      popEv (recurse W NG t sq abort (r.split).1
        (recurse W NG t sq abort (r.split).2 (pushEv (tick s)))) := by
  have hv : 0 < r.voxels := by omega
  have hs1 := (split_voxels_lt r h6 hv).1
  have hs2 := (split_voxels_lt r h6 hv).2
  conv_lhs => rw [recurse]
  simp only [recurseGo, h1, h2, h3, h4, h5, h6, if_true, if_false,
    Bool.false_eq_true, if_neg, ite_false, ite_true]
  rw [← recurse_eq_go W NG t sq abort (r.split).2 _ r.voxels hs2,
    ← recurse_eq_go W NG t sq abort (r.split).1 _ r.voxels hs1]

theorem stagePush_depth (t : Tree) (sq : ℚ → ℚ) (NG : ℕ) (r : Region)
    (i j n : ℕ) (s : PixState) :
    (stagePush t sq NG r i j n s).depth = fun y x =>
      if y = r.Y.min + j ∧ x = r.X.min + i
      then ((r.Z.pos n : ℚ) : WithBot ℚ) else s.depth y x := by
  unfold stagePush
  dsimp only
  split <;> rfl

theorem colmaxAux_le {t : Tree} {r : Region} {i j n : ℕ} {B : WithBot ℚ}
    (h : ∀ k, k < n → ((r.Z.pos k : ℚ) : WithBot ℚ) ≤ B) :
    colmaxAux t r i j n ≤ B := by
  induction n with
  | zero => exact bot_le
  | succ n ih =>
    unfold colmaxAux
    split
    · exact max_le (ih fun k hk => h k (by omega)) (h n (by omega))
    · exact ih fun k hk => h k (by omega)

theorem column_depth_own (t : Tree) (sq : ℚ → ℚ) (NG : ℕ) (r : Region)
    (i j : ℕ) (hZ : ZMono r) :
    ∀ n, n ≤ r.Z.size → ∀ s : PixState,
      (column t sq NG r i j n s).depth (r.Y.min + j) (r.X.min + i) =
        max (s.depth (r.Y.min + j) (r.X.min + i)) (colmaxAux t r i j n) := by
  intro n
  induction n with
  | zero =>
    intro _ s
    simp [column, colmaxAux, max_eq_left bot_le]
  | succ n ih =>
    intro hn s
    have hcb : colmaxAux t r i j n ≤ ((r.Z.pos n : ℚ) : WithBot ℚ) := by
      apply colmaxAux_le
      intro k hk
      exact_mod_cast le_of_lt (hZ n (by omega) k hk)
    unfold column colmaxAux
    split
    · rename_i hf
      split
      · rename_i hd
        rw [stagePush_depth]
        simp only [and_self, if_pos]
        rw [max_eq_right hcb, max_eq_right (le_of_lt hd)]
      · rename_i hd
        push_neg at hd
        rw [ih (by omega) s, max_comm (colmaxAux t r i j n), ← max_assoc,
          max_eq_left hd]
    · exact ih (by omega) s

theorem column_depth_other (t : Tree) (sq : ℚ → ℚ) (NG : ℕ) (r : Region)
    (i j y x : ℕ) (hyx : ¬ (y = r.Y.min + j ∧ x = r.X.min + i)) :
    ∀ n, ∀ s : PixState, (column t sq NG r i j n s).depth y x = s.depth y x := by
  intro n
  induction n with
  | zero => intro s; rfl
  | succ n ih =>
    intro s
    unfold column
    split
    · split
      · rw [stagePush_depth]
        simp only [hyx, if_neg, ite_false]
      · exact ih s
    · exact ih s

theorem colsAux_mem (Ysz : ℕ) :
    ∀ XN (p : ℕ × ℕ), p ∈ colsAux Ysz XN ↔ p.1 < XN ∧ p.2 < Ysz := by
  intro XN
  induction XN with
  | zero => intro p; simp [colsAux]
  | succ XN ih =>
    intro p
    unfold colsAux
    rw [List.mem_append, ih p]
    simp only [List.mem_map, List.mem_range]
    constructor
    · rintro (⟨h1, h2⟩ | ⟨j, hj, hp⟩)
      · omega
      · rw [← hp]; omega
    · rintro ⟨h1, h2⟩
      by_cases hc : p.1 < XN
      · exact Or.inl ⟨hc, h2⟩
      · right
        refine ⟨p.2, h2, ?_⟩
        obtain ⟨a, b⟩ := p
        simp only at h1 hc
        have ha : a = XN := by omega
        rw [ha]

theorem colsAux_nodup (Ysz : ℕ) : ∀ XN, (colsAux Ysz XN).Nodup := by
  intro XN
  induction XN with
  | zero => simp [colsAux]
  | succ XN ih =>
    unfold colsAux
    apply List.Nodup.append ih
    · exact (List.nodup_range Ysz).map (fun a b h => by simpa using h)
    · intro p hp hq
      have h1 := (colsAux_mem Ysz XN p).1 hp
      simp only [List.mem_map, List.mem_range] at hq
      obtain ⟨j, _, hj⟩ := hq
      rw [← hj] at h1
      omega

theorem foldl_columns_depth (t : Tree) (sq : ℚ → ℚ) (NG : ℕ) (r : Region)
    (hZ : ZMono r) :
    ∀ l : List (ℕ × ℕ), l.Nodup → ∀ (s : PixState) (y x : ℕ),
      (l.foldl (fun s p => column t sq NG r p.1 p.2 r.Z.size s) s).depth y x =
        if ∃ p ∈ l, y = r.Y.min + p.2 ∧ x = r.X.min + p.1
        then max (s.depth y x) (colmaxAux t r (x - r.X.min) (y - r.Y.min) r.Z.size)
        else s.depth y x := by
  intro l
  induction l with
  | nil =>
    intro _ s y x
    simp
  | cons c l ih =>
    intro hnd s y x
    rw [List.nodup_cons] at hnd
    rw [List.foldl_cons, ih hnd.2]
    by_cases hyx : y = r.Y.min + c.2 ∧ x = r.X.min + c.1
    · have hnotl : ¬ ∃ p ∈ l, y = r.Y.min + p.2 ∧ x = r.X.min + p.1 := by
        rintro ⟨p, hpl, hp1, hp2⟩
        have hpc : p = c := by
          have e1 : p.2 = c.2 := by omega
          have e2 : p.1 = c.1 := by omega
          exact Prod.ext e2 e1
        exact hnd.1 (hpc ▸ hpl)
      rw [if_neg hnotl, if_pos ⟨c, List.mem_cons_self c l, hyx⟩]
      obtain ⟨hy, hx⟩ := hyx
      subst hy; subst hx
      have e1 : r.X.min + c.1 - r.X.min = c.1 := by omega
      have e2 : r.Y.min + c.2 - r.Y.min = c.2 := by omega
      rw [e1, e2]
      exact column_depth_own t sq NG r c.1 c.2 hZ r.Z.size (le_refl _) s
    · rw [column_depth_other t sq NG r c.1 c.2 y x hyx]
      have : (∃ p ∈ c :: l, y = r.Y.min + p.2 ∧ x = r.X.min + p.1) ↔
          (∃ p ∈ l, y = r.Y.min + p.2 ∧ x = r.X.min + p.1) := by
        constructor
        · rintro ⟨p, hpl, hp⟩
          rcases List.mem_cons.1 hpl with h | h
          · exact absurd (h ▸ hp) hyx
          · exact ⟨p, h, hp⟩
        · rintro ⟨p, hpl, hp⟩
          exact ⟨p, List.mem_cons_of_mem c hpl, hp⟩
      simp only [this]

theorem pixels_depth (t : Tree) (sq : ℚ → ℚ) (NG : ℕ) (r : Region)
    (hZ : ZMono r) (d : Depth) (nm : Norm) :
    (pixels t sq NG r d nm).1 = depthSpec t r d := by
  funext y x
  show (pixelsState t sq NG r ⟨d, nm, []⟩).depth y x = _
  unfold pixelsState cols
  rw [foldl_columns_depth t sq NG r hZ _ (colsAux_nodup r.Y.size r.X.size)]
  unfold depthSpec colmax
  congr 1
  simp only [eq_iff_iff]
  constructor
  · rintro ⟨p, hpm, hp1, hp2⟩
    have := (colsAux_mem r.Y.size r.X.size p).1 hpm
    exact ⟨by omega, by omega, by omega, by omega⟩
  · rintro ⟨h1, h2, h3, h4⟩
    refine ⟨(x - r.X.min, y - r.Y.min), ?_, by omega, by omega⟩
    rw [colsAux_mem]
    constructor
    · simpa using by omega
    · simpa using by omega


/-! ### colmax facts used by the `recurse` branches -/

theorem colmaxAux_succ (t : Tree) (r : Region) (i j n : ℕ) :
    colmaxAux t r i j (n + 1) =
      if t.f (r.X.pos i) (r.Y.pos j) (r.Z.pos n) < 0
      then max (colmaxAux t r i j n) ((r.Z.pos n : ℚ) : WithBot ℚ)
      else colmaxAux t r i j n := rfl

theorem colmax_le_zcap (t : Tree) (r : Region) (i j : ℕ) (hZ : ZMono r) :
    colmax t r i j ≤ ((zcap r : ℚ) : WithBot ℚ) := by
  apply colmaxAux_le
  intro k hk
  rcases Nat.lt_or_ge k (r.Z.size - 1) with h | h
  · exact_mod_cast le_of_lt (hZ (r.Z.size - 1) (by omega) k h)
  · have hk1 : k = r.Z.size - 1 := by omega
    rw [hk1, zcap]

theorem le_colmaxAux (t : Tree) (r : Region) (i j k : ℕ)
    (hf : t.f (r.X.pos i) (r.Y.pos j) (r.Z.pos k) < 0) :
    ∀ n, k < n → ((r.Z.pos k : ℚ) : WithBot ℚ) ≤ colmaxAux t r i j n := by
  intro n
  induction n with
  | zero => omega
  | succ n ih =>
    intro hk
    rw [colmaxAux_succ]
    rcases Nat.lt_or_ge k n with h | h
    · split
      · exact le_trans (ih h) (le_max_left _ _)
      · exact ih h
    · have hkn : k = n := by omega
      subst hkn
      rw [if_pos hf]
      exact le_max_right _ _

theorem colmax_of_filled (t : Tree) (r : Region) (i j : ℕ) (hZ : ZMono r)
    (hsz : 0 < r.Z.size)
    (hall : ∀ k, k < r.Z.size → t.f (r.X.pos i) (r.Y.pos j) (r.Z.pos k) < 0) :
    colmax t r i j = ((zcap r : ℚ) : WithBot ℚ) :=
  le_antisymm (colmax_le_zcap t r i j hZ)
    (le_colmaxAux t r i j (r.Z.size - 1) (hall _ (by omega)) r.Z.size (by omega))

theorem colmax_of_empty (t : Tree) (r : Region) (i j : ℕ)
    (hall : ∀ k, k < r.Z.size → ¬ (t.f (r.X.pos i) (r.Y.pos j) (r.Z.pos k) < 0)) :
    colmax t r i j = ⊥ := by
  unfold colmax
  have h : ∀ n, n ≤ r.Z.size → colmaxAux t r i j n = ⊥ := by
    intro n
    induction n with
    | zero => intro _; rfl
    | succ n ih =>
      intro hn
      rw [colmaxAux_succ, if_neg (hall n (by omega)), ih (by omega)]
  exact h r.Z.size (le_refl _)

theorem colmaxAux_congr (t : Tree) (r r' : Region) (i j i' j' : ℕ)
    (hx : r.X.pos i = r'.X.pos i') (hy : r.Y.pos j = r'.Y.pos j')
    (hz : ∀ k, r.Z.pos k = r'.Z.pos k) :
    ∀ m, colmaxAux t r i j m = colmaxAux t r' i' j' m := by
  intro m
  induction m with
  | zero => rfl
  | succ m ih =>
    rw [colmaxAux_succ, colmaxAux_succ, hx, hy, hz m, ih]

theorem colmaxAux_shift (t : Tree) (r : Region) (i j n : ℕ) :
    ∀ m, colmaxAux t r i j (n + m) =
      max (colmaxAux t r i j n)
        (colmaxAux t ⟨r.X, r.Y, ⟨r.Z.min + n, r.Z.size - n, fun k => r.Z.pos (n + k)⟩⟩ i j m) := by
  intro m
  induction m with
  | zero =>
    show colmaxAux t r i j n = max (colmaxAux t r i j n) ⊥
    rw [max_eq_left bot_le]
  | succ m ih =>
    have e : n + (m + 1) = (n + m) + 1 := rfl
    rw [e, colmaxAux_succ, colmaxAux_succ]
    dsimp only
    split
    · rw [ih, max_assoc]
    · exact ih

/-! ### Splitting a region glues the depth effect -/

theorem depthSpec_split (t : Tree) (r : Region) (d : Depth) :
    depthSpec t (r.split).1 (depthSpec t (r.split).2 d) = depthSpec t r d := by
  obtain ⟨⟨xm, xs, xp⟩, ⟨ym, ys, yp⟩, ⟨zm, zs, zp⟩⟩ := r
  funext y x
  unfold Region.split
  split_ifs with hb1 hb2
  · -- X split
    unfold depthSpec inFoot colmax Axis.splitAt
    dsimp only
    split_ifs with h1 h2 h3 h2 h3 h3 <;> try rfl
    all_goals try (exfalso; omega)
    · congr 1
      apply colmaxAux_congr <;> intros <;> rfl
    · congr 1
      apply colmaxAux_congr
      · show xp (xs / 2 + (x - (xm + xs / 2))) = xp (x - xm)
        congr 1
        omega
      · rfl
      · intro k; rfl
  · -- Y split
    unfold depthSpec inFoot colmax Axis.splitAt
    dsimp only
    split_ifs with h1 h2 h3 h2 h3 h3 <;> try rfl
    all_goals try (exfalso; omega)
    · congr 1
      apply colmaxAux_congr <;> intros <;> rfl
    · congr 1
      apply colmaxAux_congr
      · rfl
      · show yp (ys / 2 + (y - (ym + ys / 2))) = yp (y - ym)
        congr 1
        omega
      · intro k; rfl
  · -- Z split
    unfold depthSpec inFoot colmax Axis.splitAt
    dsimp only
    split_ifs with h1 <;> try rfl
    have hsz : zs / 2 + (zs - zs / 2) = zs := by omega
    have hadd := colmaxAux_shift t ⟨⟨xm, xs, xp⟩, ⟨ym, ys, yp⟩, ⟨zm, zs, zp⟩⟩
      (x - xm) (y - ym) (zs / 2) (zs - zs / 2)
    dsimp only at hadd
    rw [hsz] at hadd
    rw [hadd]
    have e1 : colmaxAux t ⟨⟨xm, xs, xp⟩, ⟨ym, ys, yp⟩, ⟨zm, zs / 2, zp⟩⟩
        (x - xm) (y - ym) (zs / 2) =
        colmaxAux t ⟨⟨xm, xs, xp⟩, ⟨ym, ys, yp⟩, ⟨zm, zs, zp⟩⟩ (x - xm) (y - ym) (zs / 2) := by
      apply colmaxAux_congr <;> intros <;> rfl
    rw [e1, max_assoc, max_comm (colmaxAux t _ _ _ (zs - zs / 2))]

/-! ### Auxiliary facts for the recursion -/

theorem voxels_pos (r : Region) (h : 0 < r.voxels) :
    0 < r.X.size ∧ 0 < r.Y.size ∧ 0 < r.Z.size := by
  unfold Region.voxels at h
  refine ⟨?_, ?_, ?_⟩
  · rcases Nat.eq_zero_or_pos r.X.size with h0 | h0
    · rw [h0] at h; simp at h
    · exact h0
  · rcases Nat.eq_zero_or_pos r.Y.size with h0 | h0
    · rw [h0] at h; simp at h
    · exact h0
  · rcases Nat.eq_zero_or_pos r.Z.size with h0 | h0
    · rw [h0] at h; simp at h
    · exact h0

theorem canSplit_of_voxels (r : Region) (h : 1 < r.voxels) : r.canSplit = true := by
  unfold Region.canSplit
  rw [decide_eq_true_iff]
  by_contra hc
  push_neg at hc
  obtain ⟨h1, h2, h3⟩ := hc
  have hle : r.voxels ≤ 1 * 1 * 1 :=
    Nat.mul_le_mul (Nat.mul_le_mul h1 h2) h3
  omega

theorem ZMono_split (r : Region) (hZ : ZMono r) :
    ZMono (r.split).1 ∧ ZMono (r.split).2 := by
  obtain ⟨⟨xm, xs, xp⟩, ⟨ym, ys, yp⟩, ⟨zm, zs, zp⟩⟩ := r
  unfold ZMono at hZ ⊢
  dsimp only at hZ
  unfold Region.split Axis.splitAt
  split_ifs with hb1 hb2
  · exact ⟨hZ, hZ⟩
  · exact ⟨hZ, hZ⟩
  · constructor
    · intro b hb a ha
      dsimp only at hb ⊢
      exact hZ b (by omega) a ha
    · intro b hb a ha
      dsimp only at hb ⊢
      exact hZ (zs / 2 + b) (by omega) (zs / 2 + a) (by omega)

theorem occluded_depthSpec (t : Tree) (r : Region) (d : Depth) (hZ : ZMono r)
    (h : occluded r d = true) : depthSpec t r d = d := by
  funext y x
  unfold depthSpec
  split
  · rename_i hfoot
    unfold inFoot at hfoot
    unfold occluded at h
    have hocc := of_decide_eq_true h
    have hd : ((zcap r : ℚ) : WithBot ℚ) ≤ d y x := by
      have hh := hocc (y - r.Y.min) (by omega) (x - r.X.min) (by omega)
      rw [show r.Y.min + (y - r.Y.min) = y from by omega,
        show r.X.min + (x - r.X.min) = x from by omega] at hh
      exact hh
    rw [max_eq_left (le_trans (colmax_le_zcap t r _ _ hZ) hd)]
  · rfl

theorem fill_eq_depthSpec (t : Tree) (r : Region) (d : Depth) (hZ : ZMono r)
    (hsz : 0 < r.Z.size)
    (hall : ∀ i, i < r.X.size → ∀ j, j < r.Y.size → ∀ k, k < r.Z.size →
      t.f (r.X.pos i) (r.Y.pos j) (r.Z.pos k) < 0) :
    fillBlock r d = depthSpec t r d := by
  funext y x
  unfold fillBlock depthSpec
  split
  · rename_i hfoot
    have hfoot2 := hfoot
    unfold inFoot at hfoot2
    rw [colmax_of_filled t r _ _ hZ hsz
      (fun k hk => hall (x - r.X.min) (by omega) (y - r.Y.min) (by omega) k hk)]
  · rfl

theorem empty_depthSpec (t : Tree) (r : Region) (d : Depth)
    (hall : ∀ i, i < r.X.size → ∀ j, j < r.Y.size → ∀ k, k < r.Z.size →
      ¬ (t.f (r.X.pos i) (r.Y.pos j) (r.Z.pos k) < 0)) :
    depthSpec t r d = d := by
  funext y x
  unfold depthSpec
  split
  · rename_i hfoot
    have hfoot2 := hfoot
    unfold inFoot at hfoot2
    rw [colmax_of_empty t r _ _
      (fun k hk => hall (x - r.X.min) (by omega) (y - r.Y.min) (by omega) k hk)]
    rw [max_eq_left bot_le]
  · rfl

/-! ### The depth image a `recurse` call produces -/

theorem recurse_depth (W NG : ℕ) (t : Tree) (sq : ℚ → ℚ) (abort : ℕ → Bool)
    (hS : Sound t) (hW : 1 ≤ W) (hab : ∀ n, abort n = false) :
    ∀ N r s, r.voxels ≤ N → ZMono r →
      (recurse W NG t sq abort r s).depth = depthSpec t r s.depth := by
  intro N
  induction N with
  | zero =>
    intro r s hv hZ
    by_cases hocc : occluded r s.depth = true
    · rw [recurse_occl (hab _) hocc]
      exact (occluded_depthSpec t r s.depth hZ hocc).symm
    · rw [recurse_leaf (hab _) (by simpa using hocc) (by omega)]
      exact pixels_depth t sq NG r hZ s.depth s.norm
  | succ N ih =>
    intro r s hv hZ
    by_cases hocc : occluded r s.depth = true
    · rw [recurse_occl (hab _) hocc]
      exact (occluded_depthSpec t r s.depth hZ hocc).symm
    · have hocc' : occluded r s.depth = false := by simpa using hocc
      by_cases hle : r.voxels ≤ W
      · rw [recurse_leaf (hab _) hocc' hle]
        exact pixels_depth t sq NG r hZ s.depth s.norm
      · have hszs := voxels_pos r (by omega)
        by_cases hup : (t.ival r).2 < 0
        · rw [recurse_fill (hab _) hocc' hle hup]
          show fillBlock r s.depth = _
          apply fill_eq_depthSpec t r s.depth hZ hszs.2.2
          intro i hi j hj k hk
          exact lt_of_le_of_lt ((hS r i hi j hj k hk).2) hup
        · by_cases hlo : (t.ival r).1 ≤ 0
          · have hcs : r.canSplit = true := canSplit_of_voxels r (by omega)
            rw [recurse_split (hab _) hocc' hle hup hlo hcs]
            have hvs := split_voxels_lt r hcs (by omega)
            have hZs := ZMono_split r hZ
            show (recurse W NG t sq abort (r.split).1
              (recurse W NG t sq abort (r.split).2 (pushEv (tick s)))).depth = _
            rw [ih (r.split).1 _ (by omega) hZs.1,
              ih (r.split).2 _ (by omega) hZs.2]
            show depthSpec t (r.split).1 (depthSpec t (r.split).2 s.depth) = _
            exact depthSpec_split t r s.depth
          · rw [recurse_skip (hab _) hocc' hle hup hlo]
            show s.depth = _
            symm
            apply empty_depthSpec
            intro i hi j hj k hk
            have hlow := (hS r i hi j hj k hk).1
            intro hlt
            exact lt_asymm (not_le.1 hlo) (lt_of_le_of_lt hlow hlt)

/-! ### Depth monotonicity -/

theorem column_depth_mono (t : Tree) (sq : ℚ → ℚ) (NG : ℕ) (r : Region)
    (i j : ℕ) : ∀ n (s : PixState) (y x : ℕ),
      s.depth y x ≤ (column t sq NG r i j n s).depth y x := by
  intro n
  induction n with
  | zero => intro s y x; exact le_refl _
  | succ n ih =>
    intro s y x
    unfold column
    split
    · split
      · rename_i hd
        rw [stagePush_depth]
        dsimp only
        split
        · rename_i hyx
          rw [hyx.1, hyx.2]
          exact le_of_lt hd
        · exact le_refl _
      · exact ih s y x
    · exact ih s y x

theorem foldl_columns_mono (t : Tree) (sq : ℚ → ℚ) (NG : ℕ) (r : Region) :
    ∀ (l : List (ℕ × ℕ)) (s : PixState) (y x : ℕ),
      s.depth y x ≤ (l.foldl (fun s p => column t sq NG r p.1 p.2 r.Z.size s) s).depth y x := by
  intro l
  induction l with
  | nil => intro s y x; exact le_refl _
  | cons c l ih =>
    intro s y x
    rw [List.foldl_cons]
    exact le_trans (column_depth_mono t sq NG r c.1 c.2 r.Z.size s y x) (ih _ y x)

theorem pixels_depth_mono (t : Tree) (sq : ℚ → ℚ) (NG : ℕ) (r : Region)
    (d : Depth) (nm : Norm) (y x : ℕ) :
    d y x ≤ (pixels t sq NG r d nm).1 y x :=
  foldl_columns_mono t sq NG r (cols r) ⟨d, nm, []⟩ y x

theorem fillBlock_mono (r : Region) (d : Depth) (y x : ℕ) :
    d y x ≤ fillBlock r d y x := by
  unfold fillBlock
  split
  · exact le_max_left _ _
  · exact le_refl _

theorem recurse_depth_mono (W NG : ℕ) (t : Tree) (sq : ℚ → ℚ)
    (abort : ℕ → Bool) : ∀ N r s, r.voxels ≤ N → ∀ y x,
      s.depth y x ≤ (recurse W NG t sq abort r s).depth y x := by
  intro N
  induction N with
  | zero =>
    intro r s hv y x
    by_cases hab : abort s.checks = true
    · rw [recurse_abort hab]; exact le_refl _
    · by_cases hocc : occluded r s.depth = true
      · rw [recurse_occl (by simpa using hab) hocc]; exact le_refl _
      · rw [recurse_leaf (by simpa using hab) (by simpa using hocc) (by omega)]
        exact pixels_depth_mono t sq NG r s.depth s.norm y x
  | succ N ih =>
    intro r s hv y x
    by_cases hab : abort s.checks = true
    · rw [recurse_abort hab]; exact le_refl _
    by_cases hocc : occluded r s.depth = true
    · rw [recurse_occl (by simpa using hab) hocc]; exact le_refl _
    by_cases hle : r.voxels ≤ W
    · rw [recurse_leaf (by simpa using hab) (by simpa using hocc) hle]
      exact pixels_depth_mono t sq NG r s.depth s.norm y x
    by_cases hup : (t.ival r).2 < 0
    · rw [recurse_fill (by simpa using hab) (by simpa using hocc) hle hup]
      exact fillBlock_mono r s.depth y x
    by_cases hlo : (t.ival r).1 ≤ 0
    · by_cases hcs : r.canSplit = true
      · rw [recurse_split (by simpa using hab) (by simpa using hocc) hle hup hlo hcs]
        have hvs := split_voxels_lt r hcs (by omega)
        refine le_trans (ih (r.split).2 (pushEv (tick s)) (by omega) y x)
          (le_trans (ih (r.split).1 _ (by omega) y x) ?_)
        exact le_refl _
      · rw [recurse_nosplit (by simpa using hab) (by simpa using hocc) hle hup hlo hcs]
        exact le_refl _
    · rw [recurse_skip (by simpa using hab) (by simpa using hocc) hle hup hlo]
      exact le_refl _

theorem dyckRun_append : ∀ (a b : List Ev) (n : ℕ),
    dyckRun (a ++ b) n = (dyckRun a n).bind (fun m => dyckRun b m) := by
  intro a
  induction a with
  | nil => intro b n; rfl
  | cons e a ih =>
    intro b n
    cases e with
    | push => exact ih b (n + 1)
    | pop =>
      cases n with
      | zero => rfl
      | succ m => exact ih b m
    | fill => exact ih b n

theorem dyckRun_shift : ∀ (l : List Ev) (n m k : ℕ),
    dyckRun l n = some m → dyckRun l (n + k) = some (m + k) := by
  intro l
  induction l with
  | nil =>
    intro n m k h
    simp only [dyckRun, Option.some_inj] at h ⊢
    omega
  | cons e l ih =>
    intro n m k h
    cases e with
    | push =>
      show dyckRun l (n + k + 1) = some (m + k)
      have e1 : n + k + 1 = (n + 1) + k := by omega
      rw [e1]
      exact ih (n + 1) m k h
    | pop =>
      cases n with
      | zero => exact absurd h (by simp [dyckRun])
      | succ p =>
        show dyckRun (Ev.pop :: l) (p + 1 + k) = some (m + k)
        have e1 : p + 1 + k = (p + k) + 1 := by omega
        rw [e1]
        show dyckRun l (p + k) = some (m + k)
        exact ih p m k h
    | fill => exact ih n m k h

theorem recurse_trace (W NG : ℕ) (t : Tree) (sq : ℚ → ℚ) (abort : ℕ → Bool) :
    ∀ N r s, r.voxels ≤ N → ∃ dl : List Ev,
      (recurse W NG t sq abort r s).trace = s.trace ++ dl ∧
      dyckRun dl 0 = some 0 := by
  intro N
  induction N with
  | zero =>
    intro r s hv
    by_cases hab : abort s.checks = true
    · rw [recurse_abort hab]; exact ⟨[], by simp [tick], rfl⟩
    · by_cases hocc : occluded r s.depth = true
      · rw [recurse_occl (by simpa using hab) hocc]; exact ⟨[], by simp [tick], rfl⟩
      · rw [recurse_leaf (by simpa using hab) (by simpa using hocc) (by omega)]
        exact ⟨[], by simp, rfl⟩
  | succ N ih =>
    intro r s hv
    by_cases hab : abort s.checks = true
    · rw [recurse_abort hab]; exact ⟨[], by simp [tick], rfl⟩
    by_cases hocc : occluded r s.depth = true
    · rw [recurse_occl (by simpa using hab) hocc]; exact ⟨[], by simp [tick], rfl⟩
    by_cases hle : r.voxels ≤ W
    · rw [recurse_leaf (by simpa using hab) (by simpa using hocc) hle]
      exact ⟨[], by simp, rfl⟩
    by_cases hup : (t.ival r).2 < 0
    · rw [recurse_fill (by simpa using hab) (by simpa using hocc) hle hup]
      exact ⟨[Ev.fill], by simp, rfl⟩
    by_cases hlo : (t.ival r).1 ≤ 0
    · by_cases hcs : r.canSplit = true
      · rw [recurse_split (by simpa using hab) (by simpa using hocc) hle hup hlo hcs]
        have hvs := split_voxels_lt r hcs (by omega)
        obtain ⟨d2, hd2, hb2⟩ := ih (r.split).2 (pushEv (tick s)) (by omega)
        obtain ⟨d1, hd1, hb1⟩ := ih (r.split).1
          (recurse W NG t sq abort (r.split).2 (pushEv (tick s))) (by omega)
        refine ⟨Ev.push :: (d2 ++ (d1 ++ [Ev.pop])), ?_, ?_⟩
        · show (recurse W NG t sq abort (r.split).1 _).trace ++ [Ev.pop] = _
          rw [hd1, hd2]
          show ((s.trace ++ [Ev.push]) ++ d2) ++ d1 ++ [Ev.pop] = _
          simp [List.append_assoc]
        · show dyckRun (d2 ++ (d1 ++ [Ev.pop])) 1 = some 0
          rw [dyckRun_append]
          have h2 : dyckRun d2 1 = some 1 := by
            have := dyckRun_shift d2 0 0 1 hb2
            simpa using this
          rw [h2]
          show dyckRun (d1 ++ [Ev.pop]) 1 = some 0
          rw [dyckRun_append]
          have h1 : dyckRun d1 1 = some 1 := by
            have := dyckRun_shift d1 0 0 1 hb1
            simpa using this
          rw [h1]
          rfl
      · rw [recurse_nosplit (by simpa using hab) (by simpa using hocc) hle hup hlo hcs]
        exact ⟨[], by simp [tick], rfl⟩
    · rw [recurse_skip (by simpa using hab) (by simpa using hocc) hle hup hlo]
      exact ⟨[], by simp [tick], rfl⟩

/-! ### The renderer does not depend on which never-set abort flag it reads -/

theorem recurse_abort_congr (W NG : ℕ) (t : Tree) (sq : ℚ → ℚ)
    (ab1 ab2 : ℕ → Bool) (h1 : ∀ n, ab1 n = false) (h2 : ∀ n, ab2 n = false) :
    ∀ N r s, r.voxels ≤ N →
      recurse W NG t sq ab1 r s = recurse W NG t sq ab2 r s := by
  intro N
  induction N with
  | zero =>
    intro r s hv
    by_cases hocc : occluded r s.depth = true
    · rw [recurse_occl (h1 _) hocc, recurse_occl (h2 _) hocc]
    · rw [recurse_leaf (h1 _) (by simpa using hocc) (by omega),
        recurse_leaf (h2 _) (by simpa using hocc) (by omega)]
  | succ N ih =>
    intro r s hv
    by_cases hocc : occluded r s.depth = true
    · rw [recurse_occl (h1 _) hocc, recurse_occl (h2 _) hocc]
    by_cases hle : r.voxels ≤ W
    · rw [recurse_leaf (h1 _) (by simpa using hocc) hle,
        recurse_leaf (h2 _) (by simpa using hocc) hle]
    by_cases hup : (t.ival r).2 < 0
    · rw [recurse_fill (h1 _) (by simpa using hocc) hle hup,
        recurse_fill (h2 _) (by simpa using hocc) hle hup]
    by_cases hlo : (t.ival r).1 ≤ 0
    · by_cases hcs : r.canSplit = true
      · rw [recurse_split (h1 _) (by simpa using hocc) hle hup hlo hcs,
          recurse_split (h2 _) (by simpa using hocc) hle hup hlo hcs]
        have hvs := split_voxels_lt r hcs (by omega)
        rw [ih (r.split).2 (pushEv (tick s)) (by omega)]
        rw [ih (r.split).1 _ (by omega)]
      · rw [recurse_nosplit (h1 _) (by simpa using hocc) hle hup hlo hcs,
          recurse_nosplit (h2 _) (by simpa using hocc) hle hup hlo hcs]
    · rw [recurse_skip (h1 _) (by simpa using hocc) hle hup hlo,
        recurse_skip (h2 _) (by simpa using hocc) hle hup hlo]

/-! ### The gradient staging buffer stays within its capacity -/

theorem column_staged (t : Tree) (sq : ℚ → ℚ) (NG : ℕ) (r : Region)
    (i j : ℕ) (hNG : 0 < NG) : ∀ n (s : PixState),
      s.staged.length < NG → (column t sq NG r i j n s).staged.length < NG := by
  intro n
  induction n with
  | zero => intro s h; exact h
  | succ n ih =>
    intro s h
    unfold column
    split
    · split
      · unfold stagePush
        dsimp only
        split
        · rename_i hfull
          dsimp only
          simpa using hNG
        · rename_i hfull
          dsimp only
          rw [List.length_append] at hfull ⊢
          simp only [List.length_singleton] at hfull ⊢
          omega
      · exact ih s h
    · exact ih s h

theorem foldl_columns_staged (t : Tree) (sq : ℚ → ℚ) (NG : ℕ) (r : Region)
    (hNG : 0 < NG) : ∀ (l : List (ℕ × ℕ)) (s : PixState),
      s.staged.length < NG →
      (l.foldl (fun s p => column t sq NG r p.1 p.2 r.Z.size s) s).staged.length < NG := by
  intro l
  induction l with
  | nil => intro s h; exact h
  | cons c l ih =>
    intro s h
    rw [List.foldl_cons]
    exact ih _ (column_staged t sq NG r c.1 c.2 hNG r.Z.size s h)

/-! ### Byte layout of the packed normal -/

theorem lor_eq_add (i a b : ℕ) (h : b < 2 ^ i) :
    Nat.lor (2 ^ i * a) b = 2 ^ i * a + b :=
  (Nat.mul_add_lt_is_or h a).symm

theorem chan_le_255 (c len : ℚ) (hpos : 0 < len) (hc : c ^ 2 ≤ len ^ 2) :
    (⌊255 * (c / (2 * len) + 1 / 2)⌋).toNat ≤ 255 := by
  have hcl : -len ≤ c ∧ c ≤ len := by
    constructor <;> nlinarith [sq_nonneg (c + len), sq_nonneg (c - len)]
  have h2l : (0 : ℚ) < 2 * len := by linarith
  have hq1 : c / (2 * len) ≤ 1 / 2 := by
    rw [div_le_iff₀ h2l]
    linarith [hcl.2]
  have harg : 255 * (c / (2 * len) + 1 / 2) ≤ 255 := by linarith
  have hfl : ⌊255 * (c / (2 * len) + 1 / 2)⌋ ≤ 255 := by
    have := Int.floor_le_floor harg
    simpa using this
  exact Int.toNat_le.2 hfl

/-- C5 (amended): for a gradient of (genuine, nonzero) length `len`, the
packed normal is the (alpha|z|y|x) byte layout with full-opacity alpha,
where each channel is the truncation (floor, the C cast of the in-range
nonnegative double) of `255 * (component/(2*len) + 0.5)` — not the rounding
the claim states. -/
theorem packNormal_layout (g : Grad) (len : ℚ) (hpos : 0 < len)
    (hlen : len ^ 2 = g.dx ^ 2 + g.dy ^ 2 + g.dz ^ 2) :
    packNormal g len = some (255 * 2 ^ 24
      + (⌊255 * (g.dz / (2 * len) + 1 / 2)⌋).toNat * 2 ^ 16
      + (⌊255 * (g.dy / (2 * len) + 1 / 2)⌋).toNat * 2 ^ 8
      + (⌊255 * (g.dx / (2 * len) + 1 / 2)⌋).toNat) := by
  have hne : len ≠ 0 := ne_of_gt hpos
  have hdx := chan_le_255 g.dx len hpos (by nlinarith [sq_nonneg g.dy, sq_nonneg g.dz])
  have hdy := chan_le_255 g.dy len hpos (by nlinarith [sq_nonneg g.dx, sq_nonneg g.dz])
  have hdz := chan_le_255 g.dz len hpos (by nlinarith [sq_nonneg g.dx, sq_nonneg g.dy])
  unfold packNormal packChan
  simp only [if_neg hne]
  set cx := (⌊255 * (g.dx / (2 * len) + 1 / 2)⌋).toNat with hcx
  set cy := (⌊255 * (g.dy / (2 * len) + 1 / 2)⌋).toNat with hcy
  set cz := (⌊255 * (g.dz / (2 * len) + 1 / 2)⌋).toNat with hcz
  have e0 : 255 * 2 ^ 24 % 2 ^ 32 = 255 * 2 ^ 24 := Nat.mod_eq_of_lt (by norm_num)
  have e1 : cz * 2 ^ 16 % 2 ^ 32 = cz * 2 ^ 16 := by
    apply Nat.mod_eq_of_lt
    calc cz * 2 ^ 16 ≤ 255 * 2 ^ 16 := Nat.mul_le_mul_right _ hdz
    _ < 2 ^ 32 := by norm_num
  have e2 : cy * 2 ^ 8 % 2 ^ 32 = cy * 2 ^ 8 := by
    apply Nat.mod_eq_of_lt
    calc cy * 2 ^ 8 ≤ 255 * 2 ^ 8 := Nat.mul_le_mul_right _ hdy
    _ < 2 ^ 32 := by norm_num
  have e3 : cx % 2 ^ 32 = cx := Nat.mod_eq_of_lt (by omega)
  rw [e0, e1, e2, e3]
  have l1 : Nat.lor (255 * 2 ^ 24) (cz * 2 ^ 16) = 255 * 2 ^ 24 + cz * 2 ^ 16 := by
    have hb : cz * 2 ^ 16 < 2 ^ 24 := by
      calc cz * 2 ^ 16 ≤ 255 * 2 ^ 16 := Nat.mul_le_mul_right _ hdz
      _ < 2 ^ 24 := by norm_num
    calc Nat.lor (255 * 2 ^ 24) (cz * 2 ^ 16)
        = Nat.lor (2 ^ 24 * 255) (cz * 2 ^ 16) := by rw [Nat.mul_comm]
    _ = 2 ^ 24 * 255 + cz * 2 ^ 16 := lor_eq_add 24 255 _ hb
    _ = 255 * 2 ^ 24 + cz * 2 ^ 16 := by rw [Nat.mul_comm (2 ^ 24) 255]
  have l2 : Nat.lor (255 * 2 ^ 24 + cz * 2 ^ 16) (cy * 2 ^ 8) =
      255 * 2 ^ 24 + cz * 2 ^ 16 + cy * 2 ^ 8 := by
    have hb : cy * 2 ^ 8 < 2 ^ 16 := by
      calc cy * 2 ^ 8 ≤ 255 * 2 ^ 8 := Nat.mul_le_mul_right _ hdy
      _ < 2 ^ 16 := by norm_num
    have hrw : 255 * 2 ^ 24 + cz * 2 ^ 16 = 2 ^ 16 * (255 * 2 ^ 8 + cz) := by ring
    rw [hrw, lor_eq_add 16 _ _ hb]
  have l3 : Nat.lor (255 * 2 ^ 24 + cz * 2 ^ 16 + cy * 2 ^ 8) cx =
      255 * 2 ^ 24 + cz * 2 ^ 16 + cy * 2 ^ 8 + cx := by
    have hb : cx < 2 ^ 8 := by omega
    have hrw : 255 * 2 ^ 24 + cz * 2 ^ 16 + cy * 2 ^ 8 =
        2 ^ 8 * (255 * 2 ^ 16 + cz * 2 ^ 8 + cy) := by ring
    rw [hrw, lor_eq_add 8 _ _ hb]
  rw [l1, l2, l3]

/-! ### Claims -/

/-- C2: throughout a single Render invocation, no pixel's depth value ever
decreases: the per-voxel update in `pixels`, the opaque fill, and every
`recurse` call leave each pixel's depth at or above its previous value. -/
theorem depth_never_decreases :
    (∀ (t : Tree) (sq : ℚ → ℚ) (NG : ℕ) (r : Region) (d : Depth) (nm : Norm)
      (y x : ℕ), d y x ≤ (pixels t sq NG r d nm).1 y x) ∧
    (∀ (r : Region) (d : Depth) (y x : ℕ), d y x ≤ fillBlock r d y x) ∧
    (∀ (W NG : ℕ) (t : Tree) (sq : ℚ → ℚ) (abort : ℕ → Bool) (r : Region)
      (s : RState) (y x : ℕ), s.depth y x ≤ (recurse W NG t sq abort r s).depth y x) :=
  ⟨pixels_depth_mono, fillBlock_mono,
   fun W NG t sq abort r s y x =>
     recurse_depth_mono W NG t sq abort r.voxels r s (le_refl _) y x⟩

/-- C3 (amended): one interval evaluation classifies a non-leaf,
non-occluded region: upper bound negative raises every footprint pixel to
at least the region's max Z (a coefficient-wise max, not an overwrite),
touching no normals and not subdividing; otherwise lower bound nonpositive
subdivides (push, higher-Z half, lower-Z half, pop); otherwise (lower
positive) the region is skipped with no image change and no recursion. -/
theorem interval_classification (W NG : ℕ) (t : Tree) (sq : ℚ → ℚ)
    (abort : ℕ → Bool) (r : Region) (s : RState)
    (h1 : abort s.checks = false) (h2 : occluded r s.depth = false)
    (h3 : ¬ (r.voxels ≤ W)) :
    (¬ ((t.ival r).2 < 0) → ¬ ((t.ival r).1 ≤ 0) →
      recurse W NG t sq abort r s = tick s) ∧
    ((t.ival r).2 < 0 →
      recurse W NG t sq abort r s =
        ⟨fillBlock r s.depth, s.norm, s.checks + 1, s.trace ++ [Ev.fill]⟩) ∧
    (¬ ((t.ival r).2 < 0) → (t.ival r).1 ≤ 0 → r.canSplit = true →
      recurse W NG t sq abort r s =
        popEv (recurse W NG t sq abort (r.split).1
          (recurse W NG t sq abort (r.split).2 (pushEv (tick s))))) :=
  ⟨fun h4 h5 => recurse_skip h1 h2 h3 h4 h5,
   fun h4 => recurse_fill h1 h2 h3 h4,
   fun h4 h5 h6 => recurse_split h1 h2 h3 h4 h5 h6⟩

theorem interval_classification_witness :
    occluded regC s5.depth = false ∧ ¬ (regC.voxels ≤ 1) ∧
    ((¬ ((treeK.ival regC).2 < 0) → ¬ ((treeK.ival regC).1 ≤ 0) →
      recurse 1 1 treeK sqTest abortOff regC s5 = tick s5) ∧
    ((treeK.ival regC).2 < 0 →
      recurse 1 1 treeK sqTest abortOff regC s5 =
        ⟨fillBlock regC s5.depth, s5.norm, s5.checks + 1, s5.trace ++ [Ev.fill]⟩) ∧
    (¬ ((treeK.ival regC).2 < 0) → (treeK.ival regC).1 ≤ 0 → regC.canSplit = true →
      recurse 1 1 treeK sqTest abortOff regC s5 =
        popEv (recurse 1 1 treeK sqTest abortOff (regC.split).1
          (recurse 1 1 treeK sqTest abortOff (regC.split).2 (pushEv (tick s5)))))) :=
  ⟨by decide, by decide,
   interval_classification 1 1 treeK sqTest abortOff regC s5 rfl (by decide) (by decide)⟩

/-- C3 counterexample: with the pixel (0,0) already at depth 5 and the
region's maximum Z equal to 3, the opaque fill leaves that pixel at depth 5;
it is not set to the region's maximum Z as the claim states. -/
theorem fill_does_not_overwrite :
    (treeK.ival regC).2 < 0 ∧ occluded regC s5.depth = false ∧ 1 < regC.voxels ∧
    (recurse 1 1 treeK sqTest abortOff regC s5).depth 0 0 = ((5 : ℚ) : WithBot ℚ) ∧
    ((5 : ℚ) : WithBot ℚ) ≠ ((zcap regC : ℚ) : WithBot ℚ) := by
  refine ⟨by decide, by decide, by decide, by decide, by decide⟩

/-- C4 (amended): with clip set, Render forces the normal of every pixel
whose final depth equals the region's maximum Z to the packed +Z value
0xffff7f7f, regardless of how that pixel was resolved; with clip unset the
normal image of the recursion is returned unchanged. -/
theorem clip_semantics (W NG : ℕ) (t : Tree) (sq : ℚ → ℚ) (abort : ℕ → Bool)
    (r : Region) (y x : ℕ) :
    ((Render W NG t sq abort r true).2 y x =
      if (recurse W NG t sq abort r initState).depth y x = ((zcap r : ℚ) : WithBot ℚ)
      then some 0xffff7f7f
      else (recurse W NG t sq abort r initState).norm y x) ∧
    ((Render W NG t sq abort r false).2 y x =
      (recurse W NG t sq abort r initState).norm y x) :=
  ⟨rfl, rfl⟩

/-- C9: with the cancellation flag never set, Render is a deterministic
function of the graph, region and clip flag: two runs (even reading
different never-set flags) give identical depth and normal images. -/
theorem render_deterministic (W NG : ℕ) (t : Tree) (sq : ℚ → ℚ)
    (ab1 ab2 : ℕ → Bool) (r : Region) (clip : Bool)
    (h1 : ∀ n, ab1 n = false) (h2 : ∀ n, ab2 n = false) :
    Render W NG t sq ab1 r clip = Render W NG t sq ab2 r clip := by
  unfold Render
  rw [recurse_abort_congr W NG t sq ab1 ab2 h1 h2 r.voxels r initState (le_refl _)]

theorem render_deterministic_witness :
    Render 1 2 treeK sqTest abortOff regA false = Render 1 2 treeK sqTest abortOff regA false :=
  render_deterministic 1 2 treeK sqTest abortOff abortOff regA false
    (fun _ => rfl) (fun _ => rfl)

/-- C10: the lazy gradient staging buffer never overflows: if the staging
count is below the capacity NUM_POINTS on entry, it stays below it across
every column scan, every sequence of column scans, and a whole `pixels`
voxel loop, because the buffer is flushed exactly when it fills; hence
every staging write lands at an index below the capacity. -/
theorem staging_in_bounds (t : Tree) (sq : ℚ → ℚ) (NG : ℕ) (r : Region)
    (hNG : 0 < NG) :
    (∀ (i j n : ℕ) (s : PixState), s.staged.length < NG →
      (column t sq NG r i j n s).staged.length < NG) ∧
    (∀ (l : List (ℕ × ℕ)) (s : PixState), s.staged.length < NG →
      (l.foldl (fun s p => column t sq NG r p.1 p.2 r.Z.size s) s).staged.length < NG) ∧
    (∀ s : PixState, s.staged.length < NG →
      (pixelsState t sq NG r s).staged.length < NG) :=
  ⟨fun i j n s h => column_staged t sq NG r i j hNG n s h,
   fun l s h => foldl_columns_staged t sq NG r hNG l s h,
   fun s h => foldl_columns_staged t sq NG r hNG (cols r) s h⟩

theorem staging_in_bounds_witness :
    0 < 1 ∧
    (pixelsState treeK sqTest 1 regA ⟨fun _ _ => ⊥, fun _ _ => some 0, []⟩).staged.length < 1 :=
  ⟨by decide,
   (staging_in_bounds treeK sqTest 1 regA (by decide)).2.2
     ⟨fun _ _ => ⊥, fun _ _ => some 0, []⟩ (by decide)⟩

/-- C7: a `recurse` call that reads a set cancellation flag returns at once,
leaving the depth and normal images exactly as they were (only the load
counter advances); consequently a Render whose flag is set from the start
returns the sentinel images (depth -infinity, normal zero) unchanged, for
either clip mode. -/
theorem cancellation_semantics (W NG : ℕ) (t : Tree) (sq : ℚ → ℚ)
    (abort : ℕ → Bool) (r : Region) (s : RState) (clip : Bool) :
    (abort s.checks = true → recurse W NG t sq abort r s = tick s) ∧
    (abort 0 = true → (Render W NG t sq abort r clip).1 = initState.depth ∧
      (Render W NG t sq abort r clip).2 = initState.norm) := by
  constructor
  · exact fun h => recurse_abort h
  · intro h0
    unfold Render
    rw [recurse_abort h0]
    cases clip
    · exact ⟨rfl, rfl⟩
    · refine ⟨rfl, ?_⟩
      show (fun y x => if (tick initState).depth y x = ((zcap r : ℚ) : WithBot ℚ)
        then some 0xffff7f7f else (tick initState).norm y x) = initState.norm
      funext y x
      show (if (⊥ : WithBot ℚ) = ((zcap r : ℚ) : WithBot ℚ) then some 0xffff7f7f
        else some 0) = some 0
      rw [if_neg]
      exact fun h => WithBot.bot_ne_coe h

theorem cancellation_semantics_witness :
    recurse 1 1 treeK sqTest (fun _ => true) regA s5 = tick s5 ∧
    (Render 1 1 treeK sqTest (fun _ => true) regA true).1 = initState.depth ∧
    (Render 1 1 treeK sqTest (fun _ => true) regA true).2 = initState.norm :=
  ⟨(cancellation_semantics 1 1 treeK sqTest (fun _ => true) regA s5 true).1 rfl,
   (cancellation_semantics 1 1 treeK sqTest (fun _ => true) regA s5 true).2 rfl⟩

/-- C8: an ambiguous (straddling) interval makes `recurse` push, recurse
into the half with the higher Z extent first (the second component of the
split; for an X or Y split both halves keep the whole Z axis), recurse into
the lower half, then pop; and over any call tree every push is matched by
exactly one pop in strictly nested (balanced Dyck) order, early returns
included. -/
theorem push_pop_discipline :
    (∀ (W NG : ℕ) (t : Tree) (sq : ℚ → ℚ) (abort : ℕ → Bool) (r : Region)
      (s : RState), abort s.checks = false → occluded r s.depth = false →
      ¬ (r.voxels ≤ W) → ¬ ((t.ival r).2 < 0) → (t.ival r).1 ≤ 0 →
      r.canSplit = true →
      (recurse W NG t sq abort r s =
        popEv (recurse W NG t sq abort (r.split).1
          (recurse W NG t sq abort (r.split).2 (pushEv (tick s))))) ∧
      (ZMono r →
        ((r.split).1.Z = r.Z ∧ (r.split).2.Z = r.Z) ∨
        (∀ a, a < (r.split).1.Z.size → ∀ b, b < (r.split).2.Z.size →
          (r.split).1.Z.pos a ≤ (r.split).2.Z.pos b))) ∧
    (∀ (W NG : ℕ) (t : Tree) (sq : ℚ → ℚ) (abort : ℕ → Bool) (r : Region)
      (s : RState), ∃ dl : List Ev,
        (recurse W NG t sq abort r s).trace = s.trace ++ dl ∧
        isBalanced dl = true) := by
  constructor
  · intro W NG t sq abort r s h1 h2 h3 h4 h5 h6
    refine ⟨recurse_split h1 h2 h3 h4 h5 h6, ?_⟩
    intro hZ
    obtain ⟨⟨xm, xs, xp⟩, ⟨ym, ys, yp⟩, ⟨zm, zs, zp⟩⟩ := r
    unfold ZMono at hZ
    dsimp only at hZ
    unfold Region.split Axis.splitAt
    split_ifs with hb1 hb2
    · exact Or.inl ⟨rfl, rfl⟩
    · exact Or.inl ⟨rfl, rfl⟩
    · right
      intro a ha b hb
      dsimp only at ha hb ⊢
      exact le_of_lt (hZ (zs / 2 + b) (by omega) a (by omega))
  · intro W NG t sq abort r s
    obtain ⟨dl, hdl, hrun⟩ :=
      recurse_trace W NG t sq abort r.voxels r s (le_refl _)
    refine ⟨dl, hdl, ?_⟩
    unfold isBalanced
    rw [hrun]
    rfl

theorem push_pop_discipline_witness :
    occluded regA (fun _ _ => ⊥) = false ∧ ¬ (regA.voxels ≤ 1) ∧
    ¬ ((treeAmb.ival regA).2 < 0) ∧ (treeAmb.ival regA).1 ≤ 0 ∧
    regA.canSplit = true ∧ ZMono regA ∧
    ((recurse 1 1 treeAmb sqTest abortOff regA initState =
        popEv (recurse 1 1 treeAmb sqTest abortOff (regA.split).1
          (recurse 1 1 treeAmb sqTest abortOff (regA.split).2 (pushEv (tick initState))))) ∧
      (ZMono regA →
        ((regA.split).1.Z = regA.Z ∧ (regA.split).2.Z = regA.Z) ∨
        (∀ a, a < (regA.split).1.Z.size → ∀ b, b < (regA.split).2.Z.size →
          (regA.split).1.Z.pos a ≤ (regA.split).2.Z.pos b))) ∧
    (∃ dl : List Ev,
      (recurse 1 1 treeAmb sqTest abortOff regA initState).trace =
        initState.trace ++ dl ∧ isBalanced dl = true) :=
  ⟨by decide, by decide, by decide, by decide, by decide, by unfold ZMono; decide,
   push_pop_discipline.1 1 1 treeAmb sqTest abortOff regA initState rfl
     (by decide) (by decide) (by decide) (by decide) (by decide),
   push_pop_discipline.2 1 1 treeAmb sqTest abortOff regA initState⟩

/-! ### Concrete packing evaluations (shared helpers) -/

theorem floorHalf : (⌊(255 : ℚ) * 2⁻¹⌋).toNat = 127 := by
  have h : ⌊(255 : ℚ) * 2⁻¹⌋ = 127 := by
    rw [Int.floor_eq_iff]
    constructor
    · norm_num
    · norm_num
  rw [h]
  rfl

theorem floorOne : (⌊(255 : ℚ) * (2⁻¹ + 2⁻¹)⌋).toNat = 255 := by
  have h : ⌊(255 : ℚ) * (2⁻¹ + 2⁻¹)⌋ = 255 := by
    rw [Int.floor_eq_iff]
    constructor
    · norm_num
    · norm_num
  rw [h]
  rfl

theorem packNormal_eval_z : packNormal ⟨0, 0, 1⟩ 1 = some 0xffff7f7f := by
  simp [packNormal, packChan, floorHalf, floorOne]
  decide

theorem packNormal_eval_x : packNormal ⟨1, 0, 0⟩ 1 = some 0xff7f7fff := by
  simp [packNormal, packChan, floorHalf, floorOne]
  decide

/-- C1 (amended): for every graph and region (cancellation never set), the
depth image of the adaptive recursive renderer is pixel-identical to the
exhaustive per-voxel evaluation of the same region at the same resolution;
the normal images may differ (regions resolved by the opaque fill receive
no computed normals). -/
theorem adaptive_matches_exhaustive_depth (W NG : ℕ) (t : Tree) (sq : ℚ → ℚ)
    (abort : ℕ → Bool) (r : Region) (clip : Bool) (hS : Sound t) (hZ : ZMono r)
    (hW : 1 ≤ W) (hab : ∀ n, abort n = false) :
    (Render W NG t sq abort r clip).1 = (exhaustive t sq NG r).1 := by
  have h1 : (Render W NG t sq abort r clip).1 =
      (recurse W NG t sq abort r initState).depth := by
    unfold Render
    cases clip <;> rfl
  rw [h1, recurse_depth W NG t sq abort hS hW hab r.voxels r initState (le_refl _) hZ]
  unfold exhaustive
  rw [pixels_depth t sq NG r hZ]
  rfl

theorem adaptive_matches_exhaustive_depth_witness :
    Sound treeK ∧ ZMono regA ∧ 1 ≤ 1 ∧
    (Render 1 2 treeK sqTest abortOff regA false).1 = (exhaustive treeK sqTest 2 regA).1 :=
  ⟨fun _ i _ j _ k _ => ⟨le_refl _, le_refl _⟩, by unfold ZMono; decide, le_refl _,
   adaptive_matches_exhaustive_depth 1 2 treeK sqTest abortOff regA false
     (fun _ i _ j _ k _ => ⟨le_refl _, le_refl _⟩) (by unfold ZMono; decide)
     (le_refl _) (fun _ => rfl)⟩

/-- C1 counterexample: on the constant-inside field over a 1 x 1 x 2 region
with batch width 1, the adaptive renderer resolves the only pixel by the
opaque fill and writes no normal (it stays 0), while the exhaustive
per-voxel evaluation computes and packs a gradient normal there: the normal
images are not pixel-identical. -/
theorem adaptive_exhaustive_normals_differ :
    (Render 1 2 treeK sqTest abortOff regA false).2 0 0 = some 0 ∧
    (exhaustive treeK sqTest 2 regA).2 0 0 = some 0xffff7f7f ∧
    (Render 1 2 treeK sqTest abortOff regA false).2 0 0 ≠
      (exhaustive treeK sqTest 2 regA).2 0 0 := by
  have h1 : (Render 1 2 treeK sqTest abortOff regA false).2 0 0 = some 0 := by decide
  have h2 : (exhaustive treeK sqTest 2 regA).2 0 0 = some 0xffff7f7f := by
    have hL : sqTest ((0 : ℚ) ^ 2 + 0 ^ 2 + 1 ^ 2) = 1 := by norm_num [sqTest]
    simp +decide [exhaustive, pixels, pixelsState, cols, colsAux, column, stagePush,
      flush, treeK, sqTest, regA, posU, packNormal_eval_z, hL, List.range_succ]
  refine ⟨h1, h2, ?_⟩
  rw [h1, h2]
  decide

/-- C4 counterexample: a single-voxel render resolved purely by a per-voxel
interior crossing (the trace holds no fill event) still has its normal
overwritten with the packed +Z value when clip is set, instead of retaining
its computed normal 0xff7f7fff. -/
theorem clip_overwrites_crossing :
    (recurse 256 1 treeX sqTest abortOff regB initState).trace = [] ∧
    (Render 256 1 treeX sqTest abortOff regB false).2 0 0 = some 0xff7f7fff ∧
    (Render 256 1 treeX sqTest abortOff regB true).2 0 0 = some 0xffff7f7f := by
  refine ⟨by decide, ?_, by decide⟩
  have hL : sqTest ((1 : ℚ) ^ 2 + 0 ^ 2 + 0 ^ 2) = 1 := by norm_num [sqTest]
  have h2 : (pixels treeX sqTest 1 regB (fun _ _ => ⊥) (fun _ _ => some 0)).2 0 0 =
      some 0xff7f7fff := by
    simp +decide [pixels, pixelsState, cols, colsAux, column, stagePush, flush,
      treeX, sqTest, regB, posU, packNormal_eval_x, hL, List.range_succ]
  have hstep : recurse 256 1 treeX sqTest abortOff regB initState =
      ⟨(pixels treeX sqTest 1 regB initState.depth initState.norm).1,
       (pixels treeX sqTest 1 regB initState.depth initState.norm).2, 1, []⟩ :=
    recurse_leaf rfl (by decide) (by decide)
  show (recurse 256 1 treeX sqTest abortOff regB initState).norm 0 0 = some 0xff7f7fff
  rw [hstep]
  exact h2

/-- C5 counterexample: the source truncates each packed channel where the
claim demands rounding: for the gradient (1,0,0) of unit length the code
packs 0xff7f7fff (channels 127), while the claimed round formula gives
0xff8080ff (channels 128); already the single channel c = 0, len = 1 packs
127 instead of round(127.5) = 128. -/
theorem packing_rounds_counterexample :
    packChan 0 1 = some 127 ∧ packChanSpec 0 1 = some 128 ∧
    packNormal ⟨1, 0, 0⟩ 1 = some 0xff7f7fff ∧
    packNormalSpec ⟨1, 0, 0⟩ 1 = some 0xff8080ff ∧
    (0xff7f7fff : ℕ) ≠ 0xff8080ff := by
  have hr1 : round ((255 : ℚ) * 2⁻¹) = 128 := by
    rw [round_eq]
    have h : ⌊(255 : ℚ) * 2⁻¹ + 1 / 2⌋ = 128 := by
      rw [Int.floor_eq_iff]
      constructor
      · norm_num
      · norm_num
    rw [h]
  have hr2 : round ((255 : ℚ) * (2⁻¹ + 2⁻¹)) = 255 := by
    rw [round_eq]
    have h : ⌊(255 : ℚ) * (2⁻¹ + 2⁻¹) + 1 / 2⌋ = 255 := by
      rw [Int.floor_eq_iff]
      constructor
      · norm_num
      · norm_num
    rw [h]
  refine ⟨?_, ?_, packNormal_eval_x, ?_, by decide⟩
  · simp [packChan, floorHalf]
  · simp [packChanSpec, hr1]
  · simp [packNormalSpec, packChanSpec, hr1, hr2]

theorem packNormal_layout_witness :
    (0 : ℚ) < 1 ∧ ((1 : ℚ) ^ 2 = 0 ^ 2 + 0 ^ 2 + 1 ^ 2) ∧
    packNormal ⟨0, 0, 1⟩ 1 = some 0xffff7f7f := by
  refine ⟨by norm_num, by norm_num, ?_⟩
  have h := packNormal_layout ⟨0, 0, 1⟩ 1 (by norm_num) (by norm_num)
  rw [h]
  dsimp only
  have c1 : (⌊(255 : ℚ) * (1 / (2 * 1) + 1 / 2)⌋).toNat = 255 := by
    have e : (255 : ℚ) * (1 / (2 * 1) + 1 / 2) = 255 := by norm_num
    rw [e]
    simp
  have c0 : (⌊(255 : ℚ) * (0 / (2 * 1) + 1 / 2)⌋).toNat = 127 := by
    have e : (255 : ℚ) * (0 / (2 * 1) + 1 / 2) = 255 * 2⁻¹ := by norm_num
    rw [e]
    exact floorHalf
  rw [c1, c0]
  norm_num

/-- C6: the code has no zero-length guard: rendering a field whose staged
gradient is (0,0,0) makes `run()` compute `len = 0` and divide `0 / (2*0)`,
i.e. 0/0 = NaN, which propagates into the undefined uint32 conversion of
the packed color (modelled as `none`), contradicting the claimed
clamp-or-sentinel policy.  (`fun _ => 0` agrees with the real square root
at the only argument used, 0.) -/
theorem zero_gradient_nan :
    treeZer.grad 0 0 0 = ⟨0, 0, 0⟩ ∧
    (Render 256 1 treeZer (fun _ => 0) abortOff regB false).2 0 0 = none := by
  exact ⟨rfl, by decide⟩

end Heightmap
